import Mathlib

/-
  Verification development for the incremental-build bookkeeping core of the
  brunch file watcher: a shallow embedding of `src/lib/fs_utils/file_list.js`
  and `src/lib/fs_utils/source_file.js`, followed by theorems about the
  embedded operations.

  Modelling conventions:
  * JavaScript strings that are sliced / searched character-wise are embedded
    as `List Char`; path strings that are only compared for equality stay
    `String`.
  * JS `Set` objects are `List String` kept duplicate-free by construction
    (`jsSetAdd` inserts only when absent, deletion filters every occurrence,
    exactly matching `Set.prototype.add` / `Set.prototype.delete`).
  * Asynchronous settlement of a promise chain is modelled by an explicit
    state-passing function taking the settlement outcome (`Except`) of the
    upstream promise; `p.then(onF, onR)` where both handlers return normally
    yields a fulfilled promise, which the model makes explicit.
  * External collaborators (the pipeline, `fcache.readFile`, `JSON.parse` of
    a source-map string, the ignore conventions, `deppack.isNpm`) are
    parameters of the embedded functions.
-/

/-! ## JavaScript primitives used by the two source files -/

/-- Clamp an index for `String.prototype.slice`: a negative index counts from
the end (never below 0), a non-negative one is capped at the length. -/
def jsSliceIdx (len : Nat) (i : Int) : Nat :=
  if i < 0 then ((len : Int) + i).toNat else min i.toNat len

/-- `s.slice(start, stop)` on a JS string embedded as `List Char`. -/
def jsSlice (s : List Char) (start stop : Int) : List Char :=
  (s.take (jsSliceIdx s.length stop)).drop (jsSliceIdx s.length start)

/-- One-argument `s.slice(start)` = `s.slice(start, s.length)`. -/
def jsSliceEnd (s : List Char) (start : Int) : List Char :=
  jsSlice s start (s.length : Int)

/-- Does `sub` occur in `s` at position `i`? (helper for `indexOf`). -/
def occursAt (s sub : List Char) (i : Nat) : Bool :=
  (s.drop i).take sub.length == sub

/-- `s.indexOf(sub)` for JS strings: the least position at which `sub`
occurs, or `-1`. `s.indexOf("")` is `0`, as in JS. -/
def jsIndexOfSub (s sub : List Char) : Int :=
  match (List.range (s.length + 1)).find? (occursAt s sub) with
  | some i => (i : Int)
  | none => -1

/-- `Array.prototype.indexOf` with an explicit strict-equality test:
the index of the first element satisfying it, or `-1`. -/
def jsIndexOf {α : Type} (l : List α) (test : α → Bool) : Int :=
  match l.findIdx? test with
  | some i => (i : Int)
  | none => -1

/-- `arr.splice(start, 1)`: remove one element at `start`, where a negative
`start` counts from the end (clamped at 0) and an over-long one at the
length. `splice(-1, 1)` on a non-empty array removes the LAST element. -/
def jsSpliceRemove1 {α : Type} (l : List α) (start : Int) : List α :=
  let a := jsSliceIdx l.length start
  l.take a ++ l.drop (a + 1)

/-- `Set.prototype.add` on the duplicate-free list model: append only when
the element is absent. -/
def jsSetAdd (l : List String) (x : String) : List String :=
  if l.contains x then l else l ++ [x]

/-- `Set.prototype.delete`: remove the element (filtering keeps the model
exact even without a separate no-duplicates invariant). -/
def jsSetDel (l : List String) (x : String) : List String :=
  l.filter (fun q => q != x)

/-! ## source_file.js — source-map composition (`updateMap`) -/

/-- A parsed source-map object; only the `sources` array is relevant to the
manifest logic (`none` models an absent `sources` property). The rest of the
mapping data is opaque to this development. -/
structure SMapObj where
  sources : Option (List String)
deriving DecidableEq, Repr

/-- The `sourceMap` argument of `updateMap`: a raw JSON string or an
already-parsed object. (`null`/`undefined` is `Option.none` one level up.) -/
inductive SMapInput where
  | str (s : List Char)
  | obj (m : SMapObj)
deriving DecidableEq, Repr

/-- The `wrapped` value produced by the module wrapper: either an object
`{prefix, suffix, data}` or a plain string containing the compiled text. -/
inductive Wrapped where
  | obj (pre suf : List Char) (data : Option (List Char))
  | str (w : List Char)
deriving DecidableEq, Repr

/-- The composed output node (`source-map`'s `SourceNode`, abstracted):
`content` is the text `toString()` would render (`fromStringWithSourceMap`
and `identityNode` both render exactly the text they are given, and
`prepend`/`add` concatenate); `sourceContents` is the source-content table
written by `setSourceContent`; `mapData` records the consumed mapping
(`none` for the identity node). -/
structure Node where
  content : List Char
  sourceContents : List (String × List Char)
  isIdentity : Bool
  source : String
  mapData : Option SMapObj
deriving DecidableEq, Repr

/-- `node.setSourceContent(src, c)`: store content for a source name,
replacing any previous entry for the same name. -/
def setSourceContent (n : Node) (src : String) (c : List Char) : Node :=
  { n with sourceContents :=
      n.sourceContents.filter (fun p => p.1 != src) ++ [(src, c)] }

/-- Look up the content attached to a source name. -/
def lookupContent (n : Node) (src : String) : Option (List Char) :=
  (n.sourceContents.find? (fun p => p.1 == src)).map (fun p => p.2)

/-- `sourceMap && sourceMap.sources || []`, the fetch list of `updateMap`.
Reading `.sources` off a raw string yields `undefined`, so only an
object-form map with a present `sources` array produces paths. -/
def mapSources : Option SMapInput → List String
  | some (SMapInput.obj m) => m.sources.getD []
  | _ => []

/-- `sourceMap.replace(/^\)\]\}'/, '')`: strip the four-character XSSI guard
that some tools prepend to source-map JSON. -/
def stripXssiGuard (s : List Char) : List Char :=
  let guard : List Char := [')', ']', '}', Char.ofNat 39]
  if s.take 4 = guard then s.drop 4 else s

/-- `updateMap(path, compiled, wrapped, sourceMap)` of source_file.js.
`parse` stands for `JSON.parse` on source-map JSON and `fetch` for the
(awaited) `fcache.readFile`; the returned node is the value the
`Promise.all(...).then(() => node)` chain resolves with. The Windows
backslash re-rooting only rewrites the mapping handed to
`SourceMapConsumer`, which is opaque here. -/
def updateMap (parse : List Char → SMapObj) (fetch : String → List Char)
    (path : String) (compiled : List Char) (wrapped : Wrapped)
    (sourceMap : Option SMapInput) : Node :=
  let parts : List Char × List Char × List Char :=
    match wrapped with
    | Wrapped.obj p s d =>
        -- wrapperContent = wrapped.data || compiled  (empty string is falsy)
        (p, s, match d with
               | some dd => if dd = [] then compiled else dd
               | none => compiled)
    | Wrapped.str w =>
        let sourcePos := jsIndexOfSub w compiled
        ( jsSlice w 0 sourcePos,
          jsSliceEnd w (sourcePos + (compiled.length : Int)),
          if sourcePos > 0 then compiled else w )
  let pre := parts.1
  let suf := parts.2.1
  let wrapperContent := parts.2.2
  let node0 : Node :=
    match sourceMap with
    | some sm =>
        let mapping : SMapObj :=
          match sm with
          | SMapInput.str s => parse (stripXssiGuard s)
          | SMapInput.obj m => m
        { content := wrapperContent, sourceContents := [],
          isIdentity := false, source := "", mapData := some mapping }
    | none =>
        { content := wrapperContent, sourceContents := [],
          isIdentity := false, source := "", mapData := none }
  let node1 := { node0 with isIdentity := sourceMap.isNone }
  -- `if (prefix) node.prepend(prefix)` / `if (suffix) node.add(suffix)`
  let node2 := if pre ≠ [] then { node1 with content := pre ++ node1.content }
               else node1
  let node3 := if suf ≠ [] then { node2 with content := node2.content ++ suf }
               else node2
  let node4 := { node3 with source := path }
  let node5 := setSourceContent node4 path wrapperContent
  (mapSources sourceMap).foldl (fun n s => setSourceContent n s (fetch s)) node5

/-! ## source_file.js — the per-file record and `updateCache` -/

/-- The result the pipeline resolves with: `{source, compiled, dependencies,
sourceMap}`. -/
structure PipelineResult where
  source : List Char
  compiled : List Char
  dependencies : Option (List String)
  sourceMap : Option SMapInput
deriving DecidableEq, Repr

/-- One tracked source file (the `SourceFile` record, which is also the
`cache` argument of `updateCache`). Fields not read by the manifest logic
(`type`, the compile closure, classification flags) are external. -/
structure SourceFile where
  path : String
  source : List Char
  data : Option (List Char)
  node : Option Node
  dependencies : Option (List String)
  compilationTime : Option Nat
  error : Option String
  removed : Bool
  disposed : Bool
deriving DecidableEq, Repr

/-- A freshly constructed record (`new SourceFile(path, ...)`): empty
source/data strings, no node, empty dependency list, no error. -/
def SourceFile.init (path : String) : SourceFile :=
  { path := path, source := [], data := some [], node := none,
    dependencies := some [], compilationTime := none, error := none,
    removed := false, disposed := false }

/-- `SourceFile.prototype.dispose()`: clear path, data and dependencies, set
`disposed`, drop the node and the error. (The subsequent `Object.freeze`
makes the record inert; the model simply never mutates it again.) -/
def SourceFile.dispose (f : SourceFile) : SourceFile :=
  { f with path := "", data := some [], dependencies := some [],
           disposed := true, node := none, error := none }

/-- `updateCache(path, cache, error, result, wrap)` — the synchronously
applied field updates. In the success branch the node is assigned only
inside a detached `updateMap(...).then(...)` continuation whose promise is
dropped, so `node` is not part of the synchronous update; `wrap` is applied
to the compiled text only to feed that continuation. `now` stands for
`Date.now()`. -/
def updateCache (now : Nat) (cache : SourceFile) (error : Option String)
    (result : Option PipelineResult) : SourceFile :=
  match error with
  | some e => { cache with error := some e }
  | none =>
    match result with
    | none =>
        { cache with error := none, data := none, compilationTime := some now }
    | some r =>
        { cache with error := none, dependencies := r.dependencies,
                     source := r.source, compilationTime := some now,
                     data := some r.compiled }

/-! ## file_list.js — manifest state and the scheduler -/

/-- One tracked static asset (`Asset` record): only its path and error are
read by the manifest logic. -/
structure Asset where
  path : String
  error : Option String
deriving DecidableEq, Repr

/-- Events emitted by the manifest. -/
inductive Ev where
  | compiled (path : String)
  | ready
deriving DecidableEq, Repr

/-- The `FileList` manifest state. `compiling`, `copying` and `compiled`
model the two `Set`s and the `{path: true}` object as duplicate-free path
lists; `timerResets` counts `resetTimer()` calls (each call cancels and
reschedules the single debounce timer); `events` is the emission log. -/
structure FileList where
  files : List SourceFile
  assets : List Asset
  compiling : List String
  copying : List String
  compiled : List String
  initial : Bool
  timerResets : Nat
  events : List Ev
deriving DecidableEq, Repr

/-- `startsWith(string, substring)` of file_list.js:
`string.lastIndexOf(substring, 0) === 0`, i.e. `substring` occurs at
position 0 of `string`. -/
def startsWith (string substring : String) : Bool :=
  substring.isPrefixOf string

/-- An ignore rule, tagged the way `toString.call(test)` dispatches on it:
a regular expression (embedded by its match predicate), a predicate
function, a path-prefix string, an array of rules, or anything else. -/
inductive IgnoreRule where
  | regex (test : String → Bool)
  | func (test : String → Bool)
  | str (s : String)
  | arr (l : List IgnoreRule)
  | other

mutual

/-- The `switch` body of `isIgnored`, evaluated after the npm and
config-path checks have both fallen through. -/
def igEval (isNpm : String → Bool) (configPaths : List String)
    (normalize : String → String) (path : String) : IgnoreRule → Bool
  | IgnoreRule.regex test => test path
  | IgnoreRule.func test => test path
  | IgnoreRule.str s => startsWith (normalize path) (normalize s)
  | IgnoreRule.arr l => igEvalList isNpm configPaths normalize path l
  | IgnoreRule.other => false

/-- `test.some(subTest => this.isIgnored(path, subTest))`: each element
re-enters the full `isIgnored` (so the npm and config-path checks are
re-evaluated, with `subTest` always non-null); `some` short-circuits. -/
def igEvalList (isNpm : String → Bool) (configPaths : List String)
    (normalize : String → String) (path : String) : List IgnoreRule → Bool
  | [] => false
  | r :: rs =>
      (if isNpm path then false
       else if configPaths.contains path then true
       else igEval isNpm configPaths normalize path r)
      || igEvalList isNpm configPaths normalize path rs

end

/-- `FileList.prototype.isIgnored(path, test)`: npm paths are never
ignored; absent `test` falls back to the configured `conventions.ignored`
rule; a path listed in `configPaths` is always ignored; otherwise the rule
is dispatched on its runtime type. `isNpm` embeds `deppack.isNpm` and
`normalize` the `path.normalize` of Node. -/
def isIgnored (isNpm : String → Bool) (configPaths : List String)
    (normalize : String → String) (defaultRule : IgnoreRule)
    (path : String) (test : Option IgnoreRule) : Bool :=
  if isNpm path then false
  else
    let t := test.getD defaultRule
    if configPaths.contains path then true
    else igEval isNpm configPaths normalize path t

/-- `this.files.findIndex`-style lookup backing `find(path)`: the index of
the first record whose `path` equals the argument. -/
def FileList.findIdx (st : FileList) (path : String) : Option Nat :=
  st.files.findIdx? (fun f => f.path == path)

/-- `resetTimer()`: cancel and reschedule the single debounce timer. Only
the number of (re)schedules is tracked; the timer body is external to the
embedded operations. -/
def FileList.bumpTimer (st : FileList) : FileList :=
  { st with timerResets := st.timerResets + 1 }

/-- The synchronous part of `FileList.prototype.compile(file)`, with the
file given by its index in `this.files`. It always clears `file.removed`
first; then, if the path is already in the compiling set, it only resets
the debounce timer; otherwise it adds the path to the compiling set and
starts `file.compile()` — the returned flag records whether that pipeline
run was started. Settlement of the started promise chain is
`FileList.settleCompile`. -/
def FileList.compileAt (st : FileList) (i : Nat) : FileList × Bool :=
  match st.files[i]? with
  | none => (st, false)
  | some f =>
    let path := f.path
    let files1 := st.files.set i { f with removed := false }
    if st.compiling.contains path then
      ({ st with files := files1, timerResets := st.timerResets + 1 }, false)
    else
      ({ st with files := files1, compiling := st.compiling ++ [path] }, true)

/-- The `reset` closure of `compile`: delete the path from the compiling
set and reset the debounce timer (it returns its argument, so as a promise
handler it always fulfils). -/
def FileList.resetStep (st : FileList) (path : String) : FileList :=
  { st with compiling := jsSetDel st.compiling path,
            timerResets := st.timerResets + 1 }

/-- Settlement of `file.compile().then(reset, reset).then(() => {...})`:
`reset` is installed as BOTH the fulfilment and the rejection handler and
returns normally either way, so the intermediate promise is always
fulfilled and the final stage (mark compiled-this-build, emit `compiled`)
runs after every settlement; the chain's own result is a fulfilled
promise — the rejection is absorbed, never rethrown. -/
def FileList.settleCompile (st : FileList) (path : String)
    (outcome : Except String Unit) : FileList × Except String Unit :=
  let stage1 : FileList × Except String Unit :=
    match outcome with
    | Except.ok _ => (FileList.resetStep st path, Except.ok ())
    | Except.error _ => (FileList.resetStep st path, Except.ok ())
  match stage1.2 with
  | Except.ok _ =>
      ({ stage1.1 with compiled := jsSetAdd stage1.1.compiled path,
                       events := stage1.1.events ++ [Ev.compiled path] },
       Except.ok ())
  | Except.error e => (stage1.1, Except.error e)

/-- The filter of `compileDependencyParents`: a dependent qualifies when its
dependency list is present and non-empty, contains the path, and the
dependent is not yet marked compiled-this-build. -/
def depQualifies (compiledMarks : List String) (path : String)
    (f : SourceFile) : Bool :=
  match f.dependencies with
  | some deps => decide (deps ≠ []) && deps.contains path &&
                 !(compiledMarks.contains f.path)
  | none => false

/-- The indices (in order) of the records `compileDependencyParents` will
compile, computed — like the JS `filter` — against the pre-cascade state. -/
def parentIdxs (st : FileList) (path : String) : List Nat :=
  (List.range st.files.length).filter (fun i =>
    match st.files[i]? with
    | some f => depQualifies st.compiled path f
    | none => false)

/-- `FileList.prototype.compileDependencyParents(path)`: compile every
qualifying dependent (`parents.forEach(this.compile, this)`). -/
def FileList.compileDependencyParents (st : FileList) (path : String) :
    FileList :=
  (parentIdxs st path).foldl (fun s i => (FileList.compileAt s i).1) st

/-- `this._add(path, ...)`: append a fresh record; returns its index. -/
def FileList.addFile (st : FileList) (path : String) : FileList × Nat :=
  ({ st with files := st.files ++ [SourceFile.init path] }, st.files.length)

/-- A fresh `Asset` record (`new Asset(path, ...)`). -/
def Asset.init (path : String) : Asset :=
  { path := path, error := none }

/-- `FileList.prototype._unlink(path)`. The asset branch removes
`this.assets.indexOf(path)` — an `Array.prototype.indexOf` search for the
path STRING inside a list of Asset record OBJECTS; `===` between an object
and a string is always false, so the search yields `-1` and
`splice(-1, 1)` removes the last asset. The convention predicates
(`this.is('assets', ·)` and the full `this.isIgnored(·)`) are passed in as
`isAssets` / `ignoredP`. -/
def FileList.unlink (isAssets ignoredP : String → Bool) (st : FileList)
    (path : String) : FileList :=
  let ignored := ignoredP path
  let st1 :=
    if isAssets path then
      if !ignored then
        { st with assets :=
            jsSpliceRemove1 st.assets (jsIndexOf st.assets (fun _a => false)) }
      else st
    else
      if ignored then FileList.compileDependencyParents st path
      else
        match FileList.findIdx st path with
        | some i =>
          match st.files[i]? with
          | some f =>
              if !f.disposed then
                { st with files := st.files.set i { f with removed := true } }
              else st
          | none => st
        | none => st
  FileList.bumpTimer st1

/-- `FileList.prototype._change(path, compiler, linters, isHelper)`.
`hasCompiler` embeds the truthiness of `compiler && compiler.length`;
`readError` is the outcome of `fcache.updateCache` (a read failure throws
out of the handler — modelled as `Except.error`). In the source branch, by
JS operator precedence the compile guard is
`(!ignored && compiler && compiler.length) || deppack.isNpmJSON(path)`, the
dependent cascade runs only when `this.initial` is false, and the timer is
always reset at the end of the callback. -/
def FileList.change (isAssets ignoredP isNpmJSON : String → Bool)
    (st : FileList) (path : String) (hasCompiler : Bool)
    (readError : Option String) : Except String FileList :=
  let ignored := ignoredP path
  if isAssets path then
    if !ignored then
      let st1 :=
        if (st.assets.find? (fun a => a.path == path)).isSome then st
        else { st with assets := st.assets ++ [Asset.init path] }
      Except.ok { st1 with copying := jsSetAdd st1.copying path }
    else Except.ok st
  else
    match readError with
    | some e => Except.error e
    | none =>
      let st1 :=
        if (!ignored && hasCompiler) || isNpmJSON path then
          let targeted : FileList × Nat :=
            match FileList.findIdx st path with
            | some i => (st, i)
            | none => FileList.addFile st path
          (FileList.compileAt targeted.1 targeted.2).1
        else st
      let st2 :=
        if !st1.initial then FileList.compileDependencyParents st1 path
        else st1
      Except.ok (FileList.bumpTimer st2)

/-! ## Concrete states used by closed theorems -/

/-- A manifest holding two assets, used to exercise the unlink asset
branch. -/
def twoAssetSt : FileList :=
  { files := [], assets := [Asset.init "a.js", Asset.init "b.js"],
    compiling := [], copying := [], compiled := [], initial := true,
    timerResets := 0, events := [] }

/-- A record with the soft-delete flag set whose path is in-flight. -/
def removedInFlightFile : SourceFile :=
  { SourceFile.init "a" with removed := true }

/-- A manifest in which `removedInFlightFile` is already compiling. -/
def removedInFlightSt : FileList :=
  { files := [removedInFlightFile], assets := [], compiling := ["a"],
    copying := [], compiled := [], initial := true, timerResets := 0,
    events := [] }

/-- A node carrying previously composed output. -/
def staleNode : Node :=
  { content := ['z'], sourceContents := [], isIdentity := true,
    source := "p", mapData := none }

/-- A record that has already been compiled once (data and node set). -/
def compiledOnceFile : SourceFile :=
  { SourceFile.init "p" with node := some staleNode, data := some ['d'] }

/-! ## Claim theorems -/

/-- C3 (code bug): unlinking the asset `a.js` from an asset list
`[a.js, b.js]` removes the LAST record `b.js` and leaves `a.js` in place:
`this.assets.indexOf(path)` searches for the path string among Asset record
objects, always yields `-1`, and `splice(-1, 1)` drops the final element —
not the record whose `path` field matches. -/
theorem unlink_asset_removes_last_record :
    (FileList.unlink (fun _ => true) (fun _ => false) twoAssetSt
        "a.js").assets = [Asset.init "a.js"] := by
  decide

/-- C2 (counterexample): invoking `compile` on a record whose path is
already in the compiling set is claimed to leave the record's fields — in
particular `removed` — unchanged; but `file.removed = false` runs before
the in-flight check, so a record with `removed = true` comes out with
`removed = false`. -/
theorem compile_inflight_clears_removed_cex :
    ((removedInFlightSt.files[0]?).map (fun f => f.removed) = some true) ∧
    (((FileList.compileAt removedInFlightSt 0).1.files[0]?).map
        (fun f => f.removed) = some false) := by
  decide

/-- C2 (amended): when `compile` is invoked on a record whose path is
already in the compiling set, the only effects are clearing the record's
`removed` flag (which happens unconditionally, before the branch) and
extending the debounce timer: the compiling set, the compiled-this-build
marks, the event log, the asset list and every other field of every record
are unchanged, and the record's own compile operation is not invoked. -/
theorem compile_inflight_frame (st : FileList) (i : Nat) (f : SourceFile)
    (hf : st.files[i]? = some f)
    (hin : st.compiling.contains f.path = true) :
    (FileList.compileAt st i).1.compiling = st.compiling ∧
    (FileList.compileAt st i).1.compiled = st.compiled ∧
    (FileList.compileAt st i).1.events = st.events ∧
    (FileList.compileAt st i).1.assets = st.assets ∧
    (FileList.compileAt st i).1.copying = st.copying ∧
    (FileList.compileAt st i).1.initial = st.initial ∧
    (FileList.compileAt st i).1.timerResets = st.timerResets + 1 ∧
    (FileList.compileAt st i).1.files =
      st.files.set i { f with removed := false } ∧
    (FileList.compileAt st i).2 = false := by
  have hm : f.path ∈ st.compiling := by simpa using hin
  unfold FileList.compileAt
  rw [hf]
  simp [hm]

/-- C2 (amended, instance): the frame theorem applied to the concrete
in-flight manifest. -/
theorem compile_inflight_frame_inst :
    (FileList.compileAt removedInFlightSt 0).1.compiling =
      removedInFlightSt.compiling ∧
    (FileList.compileAt removedInFlightSt 0).2 = false := by
  have h := compile_inflight_frame removedInFlightSt 0 removedInFlightFile
    (by decide) (by decide)
  exact ⟨h.1, h.2.2.2.2.2.2.2.2⟩

/-- C1: invoking `compile` on a record whose path is already in the
compiling set starts no second pipeline run (the record's compile
operation is not invoked) and adds no duplicate entry (the compiling set
is unchanged); moreover both the coalescing branch and the starting branch
of `compile` preserve duplicate-freeness of the compiling set, so at most
one compile is in flight per path. -/
theorem compile_coalesces_inflight (st : FileList) (i : Nat)
    (f : SourceFile) (hf : st.files[i]? = some f)
    (hin : st.compiling.contains f.path = true) :
    (FileList.compileAt st i).2 = false ∧
    (FileList.compileAt st i).1.compiling = st.compiling ∧
    (∀ st2 : FileList, ∀ j : Nat, st2.compiling.Nodup →
      (FileList.compileAt st2 j).1.compiling.Nodup) := by
  have hm : f.path ∈ st.compiling := by simpa using hin
  refine ⟨?_, ?_, ?_⟩
  · unfold FileList.compileAt
    rw [hf]; simp [hm]
  · unfold FileList.compileAt
    rw [hf]; simp [hm]
  · intro st2 j hnd
    unfold FileList.compileAt
    match hg : st2.files[j]? with
    | none => simpa using hnd
    | some g =>
      by_cases hc : g.path ∈ st2.compiling
      · simp [hc, hnd]
      · have hc2 : st2.compiling.contains g.path = false := by simpa using hc
        simp only [hc2, Bool.false_eq_true, if_false]
        refine List.Nodup.append hnd (List.nodup_singleton _) ?_
        intro a ha hb
        rcases List.mem_singleton.mp hb with rfl
        exact hc ha

/-- C1 (instance): the coalescing theorem applied to the concrete
in-flight manifest. -/
theorem compile_coalesces_inflight_inst :
    (FileList.compileAt removedInFlightSt 0).2 = false ∧
    (FileList.compileAt removedInFlightSt 0).1.compiling =
      removedInFlightSt.compiling := by
  have h := compile_coalesces_inflight removedInFlightSt 0
    removedInFlightFile (by decide) (by decide)
  exact ⟨h.1, h.2.1⟩

/-- C4 (counterexample): a `null` pipeline result is claimed to clear both
`data` and `node`; `updateCache` clears `data` (and the error) but leaves
`node` holding the previously composed output. -/
theorem updateCache_null_keeps_node_cex :
    ((updateCache 5 compiledOnceFile none none).data = none) ∧
    ((updateCache 5 compiledOnceFile none none).error = none) ∧
    ((updateCache 5 compiledOnceFile none none).node = some staleNode) ∧
    some staleNode ≠ (none : Option Node) := by
  decide

/-- C4 (amended): a `null` pipeline result clears `data` and sets `error`
to `null` (so a deliberately-empty result carries no error) but leaves
`node` at its previous value; a pipeline rejection stores the error in
`error` while `data` and `node` both keep their previous values. -/
theorem updateCache_null_and_error_frame (now : Nat) (cache : SourceFile)
    (e : String) (result : Option PipelineResult) :
    ((updateCache now cache none none).data = none ∧
     (updateCache now cache none none).error = none ∧
     (updateCache now cache none none).node = cache.node) ∧
    ((updateCache now cache (some e) result).error = some e ∧
     (updateCache now cache (some e) result).data = cache.data ∧
     (updateCache now cache (some e) result).node = cache.node) := by
  unfold updateCache
  simp

/-- C7: whatever way the started compile settles — fulfilment or
rejection — the settlement chain removes the path from the compiling set,
resets the debounce timer, marks the path compiled-this-build and emits a
`compiled` event with the path; the chain itself always ends fulfilled, so
a rejection is never rethrown out of the scheduler's `compile`. -/
theorem settleCompile_cleanup (st : FileList) (path : String)
    (outcome : Except String Unit) :
    (FileList.settleCompile st path outcome).2 = Except.ok () ∧
    (FileList.settleCompile st path outcome).1.compiling.contains path
      = false ∧
    (FileList.settleCompile st path outcome).1.compiled.contains path
      = true ∧
    (FileList.settleCompile st path outcome).1.events =
      st.events ++ [Ev.compiled path] ∧
    (FileList.settleCompile st path outcome).1.timerResets =
      st.timerResets + 1 := by
  have hdel : ∀ l : List String, path ∉ jsSetDel l path := by
    intro l
    simp [jsSetDel]
  have hadd : ∀ l : List String, path ∈ jsSetAdd l path := by
    intro l
    by_cases h : path ∈ l <;> simp [jsSetAdd, h]
  cases outcome <;>
    refine ⟨rfl, ?_, ?_, rfl, rfl⟩ <;>
    simp [FileList.settleCompile, FileList.resetStep, hdel, hadd]

/-- Helper: under the two negative path-level facts, the element-wise
recursion of the array rule agrees with `List.any` over full `isIgnored`
calls — i.e. an array rule ignores the path iff ANY element does. -/
theorem igEvalList_eq_any (isNpm : String → Bool) (configPaths : List String)
    (normalize : String → String) (defaultRule : IgnoreRule) (path : String)
    (hnpm : isNpm path = false) (hcfg : configPaths.contains path = false)
    (l : List IgnoreRule) :
    igEvalList isNpm configPaths normalize path l =
      l.any (fun r =>
        isIgnored isNpm configPaths normalize defaultRule path (some r)) := by
  induction l with
  | nil => rfl
  | cons r rs ih =>
      have hm : path ∉ configPaths := by simpa using hcfg
      simp only [igEvalList, List.any_cons, ih, isIgnored, hnpm,
        Bool.false_eq_true, if_false, Option.getD_some, hm]

/-- C6: the layering of `isIgnored`. A package-dependency (npm) path is
never ignored, regardless of the rule (even an absent one); otherwise a
path listed among the designated configuration files is always ignored,
before any rule evaluation; only otherwise is the rule itself evaluated —
a regex by its match, a function by calling it on the path, a string as a
normalized path-prefix test, an array by short-circuit ANY over its
elements (each re-entering `isIgnored`), and any other value is not
ignored. -/
theorem isIgnored_layering (isNpm : String → Bool) (configPaths : List String)
    (normalize : String → String) (defaultRule : IgnoreRule)
    (path : String) :
    (isNpm path = true →
      ∀ test, isIgnored isNpm configPaths normalize defaultRule path test
        = false) ∧
    (isNpm path = false → configPaths.contains path = true →
      ∀ test, isIgnored isNpm configPaths normalize defaultRule path test
        = true) ∧
    (isNpm path = false → configPaths.contains path = false →
      (∀ m, isIgnored isNpm configPaths normalize defaultRule path
          (some (IgnoreRule.regex m)) = m path) ∧
      (∀ g, isIgnored isNpm configPaths normalize defaultRule path
          (some (IgnoreRule.func g)) = g path) ∧
      (∀ s, isIgnored isNpm configPaths normalize defaultRule path
          (some (IgnoreRule.str s)) =
            startsWith (normalize path) (normalize s)) ∧
      (∀ l, isIgnored isNpm configPaths normalize defaultRule path
          (some (IgnoreRule.arr l)) =
            l.any (fun r => isIgnored isNpm configPaths normalize
              defaultRule path (some r))) ∧
      (isIgnored isNpm configPaths normalize defaultRule path
          (some IgnoreRule.other) = false)) := by
  refine ⟨?_, ?_, ?_⟩
  · intro h test
    simp [isIgnored, h]
  · intro hn hc test
    have hm : path ∈ configPaths := by simpa using hc
    simp [isIgnored, hn, hm]
  · intro hn hc
    have hm : path ∉ configPaths := by simpa using hc
    refine ⟨?_, ?_, ?_, ?_, ?_⟩
    · intro m; simp [isIgnored, hn, hm, igEval]
    · intro g; simp [isIgnored, hn, hm, igEval]
    · intro s; simp [isIgnored, hn, hm, igEval]
    · intro l
      have lhs : isIgnored isNpm configPaths normalize defaultRule path
          (some (IgnoreRule.arr l)) =
            igEvalList isNpm configPaths normalize path l := by
        simp [isIgnored, hn, hm, igEval]
      rw [lhs]
      exact igEvalList_eq_any isNpm configPaths normalize defaultRule path
        hn hc l
    · simp [isIgnored, hn, hm, igEval]

/-- C6 (instance): with npm paths those under `node_modules/`, config files
`["brunch-config.js"]` and an array rule, a non-npm non-config path is
ignored exactly when some element matches. -/
theorem isIgnored_layering_inst :
    isIgnored (fun p => startsWith p "node_modules/") ["brunch-config.js"]
      (fun p => p) IgnoreRule.other "app/x.js"
      (some (IgnoreRule.arr [IgnoreRule.str "app/"])) =
      [IgnoreRule.str "app/"].any (fun r =>
        isIgnored (fun p => startsWith p "node_modules/")
          ["brunch-config.js"] (fun p => p) IgnoreRule.other "app/x.js"
          (some r)) := by
  exact ((isIgnored_layering (fun p => startsWith p "node_modules/")
    ["brunch-config.js"] (fun p => p) IgnoreRule.other
    "app/x.js").2.2 (by decide) (by decide)).2.2.2.1 [IgnoreRule.str "app/"]

/-- Helper: an element fetched by `[i]?` is a member of the list. -/
theorem getElemOpt_mem {α : Type} {l : List α} {i : Nat} {a : α}
    (h : l[i]? = some a) : a ∈ l := by
  rcases List.getElem?_eq_some.mp h with ⟨hl, rfl⟩
  exact List.getElem_mem hl

/-- C8: `compileDependencyParents(path)` triggers `compile` on exactly the
records that are not disposed, not yet marked compiled-this-build, and
whose dependency list contains the path. The JS filter never tests
`disposed` — instead `dispose()` empties the dependency list, so under the
invariant it establishes (a disposed record has an empty dependency list)
the filtered index set coincides with the claimed one; in particular a
disposed record is never recompiled by a cascade. The first conjunct ties
the cascade to that index set; the last records that `dispose` itself
establishes the invariant. -/
theorem cascade_compiles_exactly_dependents (st : FileList) (path : String)
    (hdisp : ∀ f, f ∈ st.files → f.disposed = true →
      f.dependencies = some []) :
    (FileList.compileDependencyParents st path =
      (parentIdxs st path).foldl (fun s i => (FileList.compileAt s i).1)
        st) ∧
    (∀ i, ∀ f : SourceFile, st.files[i]? = some f →
      (i ∈ parentIdxs st path ↔
        (f.disposed = false ∧ st.compiled.contains f.path = false ∧
         ∃ l, f.dependencies = some l ∧ path ∈ l))) ∧
    (∀ g : SourceFile, (SourceFile.dispose g).disposed = true ∧
      (SourceFile.dispose g).dependencies = some []) := by
  refine ⟨rfl, ?_, fun g => ⟨rfl, rfl⟩⟩
  intro i f hf
  have hilen : i < st.files.length := (List.getElem?_eq_some.mp hf).1
  have hmem : f ∈ st.files := getElemOpt_mem hf
  constructor
  · intro hi
    have hpred := (List.mem_filter.mp hi).2
    simp only [hf, depQualifies] at hpred
    rcases hd : f.dependencies with _ | deps
    · rw [hd] at hpred
      simp at hpred
    · rw [hd] at hpred
      simp only [Bool.and_eq_true, decide_eq_true_eq,
        Bool.not_eq_true'] at hpred
      obtain ⟨⟨hne, hcont⟩, hnc⟩ := hpred
      have hpl : path ∈ deps := by simpa using hcont
      have hdisp0 : f.disposed = false := by
        by_contra hcon
        have hT : f.disposed = true := by
          cases hx : f.disposed
          · exact absurd hx hcon
          · rfl
        have hempty := hdisp f hmem hT
        rw [hd] at hempty
        have hdeq : deps = [] := by injection hempty
        exact hne hdeq
      exact ⟨hdisp0, hnc, deps, rfl, hpl⟩
  · rintro ⟨_hdisp0, hnc, l, hl, hpl⟩
    refine List.mem_filter.mpr ⟨List.mem_range.mpr hilen, ?_⟩
    simp only [hf, depQualifies]
    rw [hl]
    simp only [Bool.and_eq_true, decide_eq_true_eq, Bool.not_eq_true']
    exact ⟨⟨List.ne_nil_of_mem hpl, by simpa using hpl⟩, hnc⟩

/-- A dependent of `"dep"` that has not been compiled this build. -/
def dependentFile : SourceFile :=
  { SourceFile.init "app/a.js" with dependencies := some ["dep"] }

/-- A disposed record (note its dependency list is empty, as `dispose`
leaves it). -/
def disposedFile : SourceFile :=
  SourceFile.dispose { SourceFile.init "app/old.js" with
    dependencies := some ["dep"] }

/-- A manifest with one live dependent of `"dep"` and one disposed record. -/
def cascadeSt : FileList :=
  { files := [dependentFile, disposedFile], assets := [], compiling := [],
    copying := [], compiled := [], initial := false, timerResets := 0,
    events := [] }

/-- C8 (instance): in `cascadeSt` the live dependent (index 0) is cascaded
and the disposed record (index 1) is not. -/
theorem cascade_compiles_exactly_dependents_inst :
    (0 ∈ parentIdxs cascadeSt "dep") ∧ ¬(1 ∈ parentIdxs cascadeSt "dep") := by
  have h := cascade_compiles_exactly_dependents cascadeSt "dep"
    (by
      intro f hfm hdt
      simp only [cascadeSt, List.mem_cons, List.mem_singleton] at hfm
      rcases hfm with rfl | rfl | hfalse
      · exact absurd hdt (by decide)
      · rfl
      · simp at hfalse)
  constructor
  · exact (h.2.1 0 dependentFile rfl).mpr
      ⟨rfl, rfl, ["dep"], rfl, by decide⟩
  · intro hc
    have := (h.2.1 1 disposedFile rfl).mp hc
    exact absurd this.1 (by decide)

/-- Helper: `compile` never changes the path of any record (it only clears
one `removed` flag), so path lookups are stable across a cascade step. -/
theorem compileAt_path_stable (s : FileList) (i j : Nat) :
    ((FileList.compileAt s i).1.files[j]?).map (fun f => f.path) =
      (s.files[j]?).map (fun f => f.path) := by
  unfold FileList.compileAt
  match hg : s.files[i]? with
  | none => rfl
  | some g =>
    have hset : ((s.files.set i { g with removed := false })[j]?).map
        (fun f => f.path) = (s.files[j]?).map (fun f => f.path) := by
      rw [List.getElem?_set]
      by_cases hij : i = j
      · subst hij
        have hlen : i < s.files.length := (List.getElem?_eq_some.mp hg).1
        simp [hlen, hg]
      · simp [hij]
    by_cases hc : s.compiling.contains g.path = true
    · simp only [hc, if_true]
      exact hset
    · simp only [hc, Bool.false_eq_true, if_false]
      exact hset

/-- Helper: a path in the compiling set stays there across a `compile`
call (coalescing keeps the set, starting only adds). -/
theorem compileAt_compiling_mono (s : FileList) (i : Nat) (q : String)
    (h : q ∈ s.compiling) : q ∈ (FileList.compileAt s i).1.compiling := by
  unfold FileList.compileAt
  match hg : s.files[i]? with
  | none => exact h
  | some g =>
    by_cases hc : s.compiling.contains g.path = true
    · simp only [hc, if_true]
      exact h
    · simp only [hc, Bool.false_eq_true, if_false]
      exact List.mem_append_left _ h

/-- Helper: membership in the compiling set is preserved by a whole fold of
`compile` calls. -/
theorem foldCompile_compiling_mono (L : List Nat) (s : FileList)
    (q : String) (h : q ∈ s.compiling) :
    q ∈ (L.foldl (fun t i => (FileList.compileAt t i).1) s).compiling := by
  induction L generalizing s with
  | nil => exact h
  | cons i L ih => exact ih _ (compileAt_compiling_mono s i q h)

/-- Helper: after `compile` is invoked on the record at index `j`, that
record's path is in the compiling set (it was either already in flight or
has just been added). -/
theorem compileAt_puts_inflight (s : FileList) (j : Nat) (g : SourceFile)
    (hg : s.files[j]? = some g) :
    g.path ∈ (FileList.compileAt s j).1.compiling := by
  unfold FileList.compileAt
  match hg2 : s.files[j]? with
  | none => rw [hg] at hg2; cases hg2
  | some g2 =>
    rw [hg] at hg2
    have hge : g.path = g2.path := by
      have : g = g2 := by injection hg2
      rw [this]
    rw [hge]
    by_cases hc : s.compiling.contains g2.path = true
    · simp only [hc, if_true]
      simpa using hc
    · simp only [hc, Bool.false_eq_true, if_false]
      exact List.mem_append_right _ (List.mem_singleton_self _)

/-- Helper: a fold of `compile` calls that visits index `j` leaves the path
of the record at `j` in the compiling set. -/
theorem foldCompile_visits (L : List Nat) (s : FileList) (j : Nat)
    (q : String) (hj : j ∈ L)
    (hq : (s.files[j]?).map (fun f => f.path) = some q) :
    q ∈ (L.foldl (fun t i => (FileList.compileAt t i).1) s).compiling := by
  induction L generalizing s with
  | nil => cases hj
  | cons i L ih =>
      rcases List.mem_cons.mp hj with rfl | hj2
      · rcases hg : s.files[j]? with _ | g
        · rw [hg] at hq; cases hq
        · rw [hg] at hq
          have hqe : g.path = q := by injection hq
          subst hqe
          exact foldCompile_compiling_mono L _ _
            (compileAt_puts_inflight s j g hg)
      · apply ih _ hj2
        rw [compileAt_path_stable s i j]
        exact hq

/-- C9: deleting an ignored non-asset path cascades to dependents
UNCONDITIONALLY — even while the first-build flag `initial` is still set,
the dependent `f` of the deleted path `p` ends up in the compiling set —
whereas a change event for the same path during the first build does not
cascade (its handler guards the cascade with `!this.initial`; here the
change also compiles nothing itself, since the path is ignored and not
npm-JSON, so the compiling set is unchanged). -/
theorem unlink_cascades_even_on_first_build
    (isAssets ignoredP isNpmJSON : String → Bool) (st : FileList)
    (p : String) (hasCompiler : Bool) (j : Nat) (f : SourceFile)
    (hinit : st.initial = true) (hig : ignoredP p = true)
    (hasset : isAssets p = false) (hnpm : isNpmJSON p = false)
    (hj : st.files[j]? = some f) (l : List String)
    (hdep : f.dependencies = some l) (hpl : p ∈ l)
    (hnc : st.compiled.contains f.path = false)
    (hcf : st.compiling.contains f.path = false) :
    ((FileList.unlink isAssets ignoredP st p).compiling.contains f.path
      = true) ∧
    ((FileList.change isAssets ignoredP isNpmJSON st p hasCompiler
        none).map (fun s => s.compiling.contains f.path) =
      Except.ok false) := by
  constructor
  · have hjp : j ∈ parentIdxs st p := by
      refine List.mem_filter.mpr
        ⟨List.mem_range.mpr (List.getElem?_eq_some.mp hj).1, ?_⟩
      simp only [hj, depQualifies]
      rw [hdep]
      simp only [Bool.and_eq_true, decide_eq_true_eq, Bool.not_eq_true']
      exact ⟨⟨List.ne_nil_of_mem hpl, by simpa using hpl⟩, hnc⟩
    have hvis : f.path ∈ (FileList.compileDependencyParents st p).compiling := by
      apply foldCompile_visits (parentIdxs st p) st j f.path hjp
      rw [hj]
      rfl
    have : f.path ∈ (FileList.unlink isAssets ignoredP st p).compiling := by
      unfold FileList.unlink
      simp only [hasset, hig, Bool.false_eq_true, if_false, if_true,
        Bool.not_true, FileList.bumpTimer]
      exact hvis
    simpa using this
  · unfold FileList.change
    simp only [hasset, hig, hnpm, hinit, Bool.not_true, Bool.false_and,
      Bool.false_eq_true, if_false, Bool.false_or, Bool.not_false,
      Except.map, FileList.bumpTimer]
    simpa using hcf

/-- A dependent of the ignored path `vendor/d.js`. -/
def firstBuildDependent : SourceFile :=
  { SourceFile.init "app/b.js" with dependencies := some ["vendor/d.js"] }

/-- A first-build manifest (`initial = true`) holding that dependent. -/
def firstBuildSt : FileList :=
  { files := [firstBuildDependent], assets := [], compiling := [],
    copying := [], compiled := [], initial := true, timerResets := 0,
    events := [] }

/-- C9 (instance): during the first build, unlinking the ignored
`vendor/d.js` puts its dependent in the compiling set, while a change event
for it does not. -/
theorem unlink_cascades_even_on_first_build_inst :
    ((FileList.unlink (fun _ => false) (fun _ => true) firstBuildSt
        "vendor/d.js").compiling.contains "app/b.js" = true) ∧
    ((FileList.change (fun _ => false) (fun _ => true) (fun _ => false)
        firstBuildSt "vendor/d.js" true none).map
      (fun s => s.compiling.contains "app/b.js") = Except.ok false) :=
  unlink_cascades_even_on_first_build (fun _ => false) (fun _ => true)
    (fun _ => false) firstBuildSt "vendor/d.js" true 0 firstBuildDependent
    rfl rfl rfl rfl rfl ["vendor/d.js"] rfl (by decide) rfl rfl

/-- Helper: `setSourceContent` makes its own entry visible. -/
theorem lookup_setSourceContent_self (n : Node) (src : String)
    (c : List Char) : lookupContent (setSourceContent n src c) src = some c := by
  unfold lookupContent setSourceContent
  rw [List.find?_append]
  have hnone : (n.sourceContents.filter (fun p => p.1 != src)).find?
      (fun p => p.1 == src) = none := by
    rw [List.find?_eq_none]
    intro x hx
    have hne := (List.mem_filter.mp hx).2
    simp only [bne_iff_ne, ne_eq] at hne
    simpa using hne
  rw [hnone]
  simp

/-- Helper: `setSourceContent` for a different source name does not change
what a lookup sees. -/
theorem lookup_setSourceContent_other (n : Node) (src t : String)
    (c : List Char) (h : src ≠ t) :
    lookupContent (setSourceContent n t c) src = lookupContent n src := by
  unfold lookupContent setSourceContent
  rw [List.find?_append]
  have hlast : ([(t, c)] : List (String × List Char)).find?
      (fun p => p.1 == src) = none := by
    simp [Ne.symm h]
  rw [hlast]
  have hfilter : (n.sourceContents.filter (fun p => p.1 != t)).find?
      (fun p => p.1 == src) = n.sourceContents.find? (fun p => p.1 == src) := by
    induction n.sourceContents with
    | nil => rfl
    | cons x xs ih =>
        by_cases hx : x.1 = src
        · have hxt : (x.1 != t) = true := by
            simp [hx, h]
          simp [List.filter_cons, hxt, List.find?_cons, hx, h]
        · by_cases hxt : x.1 = t
          · have : (x.1 != t) = false := by simp [hxt]
            simp only [List.filter_cons, this, Bool.false_eq_true, if_false]
            rw [ih]
            have : (x.1 == src) = false := by simpa using hx
            rw [List.find?_cons, this]
          · have : (x.1 != t) = true := by simpa using hxt
            have hxs : (x.1 == src) = false := by simpa using hx
            simp only [List.filter_cons, this, if_true]
            rw [List.find?_cons, hxs, List.find?_cons, hxs]
            exact ih
  rw [hfilter]
  cases n.sourceContents.find? (fun p => p.1 == src) <;> simp

/-- Helper: folding `setSourceContent` over a list of names leaves lookups
of names NOT in the list untouched. -/
theorem lookup_fold_not_mem (fetch : String → List Char)
    (srcs : List String) (n : Node) (s : String) (h : s ∉ srcs) :
    lookupContent
      (srcs.foldl (fun m t => setSourceContent m t (fetch t)) n) s =
    lookupContent n s := by
  induction srcs generalizing n with
  | nil => rfl
  | cons a srcs ih =>
      have hna : s ≠ a := fun he => h (he ▸ List.mem_cons_self a srcs)
      rw [List.foldl_cons, ih _ (fun hm => h (List.mem_cons_of_mem a hm)),
        lookup_setSourceContent_other n s a (fetch a) hna]

/-- Helper: after folding `setSourceContent` over a list of names, every
name in the list has the fetched content attached. -/
theorem lookup_fold_mem (fetch : String → List Char) (srcs : List String)
    (n : Node) (s : String) (h : s ∈ srcs) :
    lookupContent
      (srcs.foldl (fun m t => setSourceContent m t (fetch t)) n) s =
    some (fetch s) := by
  induction srcs generalizing n with
  | nil => cases h
  | cons a srcs ih =>
      rw [List.foldl_cons]
      by_cases hmem : s ∈ srcs
      · exact ih _ hmem
      · have hsa : s = a := by
          rcases List.mem_cons.mp h with he | hm
          · exact he
          · exact absurd hm hmem
        subst hsa
        rw [lookup_fold_not_mem fetch srcs _ s hmem,
          lookup_setSourceContent_self]

/-- C5 (counterexample): the claim covers maps "in either string or object
form", but for a STRING-form map the fetch list `sourceMap &&
sourceMap.sources || []` reads `.sources` off the raw string (undefined),
so no upstream content is fetched: here the parsed mapping references
`a.js` (visible in the node's consumed mapping) yet the composed node has
no content attached for `a.js`. -/
theorem updateMap_string_map_no_fetch_cex :
    (updateMap (fun _ => { sources := some ["a.js"] }) (fun _ => ['x'])
        "p.js" ['c'] (Wrapped.obj [] [] none)
        (some (SMapInput.str ['m']))).mapData =
      some { sources := some ["a.js"] } ∧
    lookupContent
      (updateMap (fun _ => { sources := some ["a.js"] }) (fun _ => ['x'])
        "p.js" ['c'] (Wrapped.obj [] [] none)
        (some (SMapInput.str ['m']))) "a.js" = none := by
  decide

/-- C5 (amended): for an OBJECT-form source map, the node the composition
chain resolves with has content attached for every source path listed in
the map's `sources` (the string-form case fetches nothing, as the
counterexample shows; the all-fetches-complete-before-resolution ordering
is inherent in the model, which returns the node only with all attachments
applied). -/
theorem updateMap_obj_map_attaches_sources
    (parse : List Char → SMapObj) (fetch : String → List Char)
    (path : String) (compiled : List Char) (wrapped : Wrapped)
    (m : SMapObj) (s : String)
    (hs : s ∈ mapSources (some (SMapInput.obj m))) :
    lookupContent
      (updateMap parse fetch path compiled wrapped
        (some (SMapInput.obj m))) s = some (fetch s) := by
  unfold updateMap
  exact lookup_fold_mem fetch (mapSources (some (SMapInput.obj m))) _ s hs

/-- C5 (amended, instance): with an object map listing `a.js` and `b.js`,
the composed node carries the fetched content of `a.js`. -/
theorem updateMap_obj_map_attaches_sources_inst :
    lookupContent
      (updateMap (fun _ => { sources := none }) (fun _ => ['y']) "p.js"
        ['c'] (Wrapped.obj [] [] none)
        (some (SMapInput.obj { sources := some ["a.js", "b.js"] })))
      "a.js" = some ['y'] :=
  updateMap_obj_map_attaches_sources (fun _ => { sources := none })
    (fun _ => ['y']) "p.js" ['c'] (Wrapped.obj [] [] none)
    { sources := some ["a.js", "b.js"] } "a.js" (by decide)

/-- Helper: attaching source contents never changes the rendered text. -/
theorem fold_setSourceContent_content (fetch : String → List Char)
    (srcs : List String) (n : Node) :
    (srcs.foldl (fun m t => setSourceContent m t (fetch t)) n).content =
      n.content := by
  induction srcs generalizing n with
  | nil => rfl
  | cons a srcs ih =>
      rw [List.foldl_cons, ih]
      rfl

/-- Helper: slicing from a non-negative in-range cast index. -/
theorem jsSliceIdx_natCast (len k : Nat) (h : k ≤ len) :
    jsSliceIdx len (k : Int) = k := by
  unfold jsSliceIdx
  rw [if_neg (by omega)]
  simp [Nat.min_eq_left h]

/-- Helper: a one-argument slice from a cast index drops that many
characters (clamping beyond the end drops everything, as `drop` does). -/
theorem jsSliceEnd_natCast (w : List Char) (a : Nat) :
    jsSliceEnd w (a : Int) = w.drop a := by
  unfold jsSliceEnd jsSlice
  rw [jsSliceIdx_natCast w.length w.length (le_refl _), List.take_length]
  unfold jsSliceIdx
  rw [if_neg (by omega)]
  simp only [Int.toNat_natCast]
  rcases le_total a w.length with h | h
  · rw [Nat.min_eq_left h]
  · rw [Nat.min_eq_right h, List.drop_length, List.drop_eq_nil_of_le h]

/-- Helper: `slice(0, k)` takes the first `k` characters. -/
theorem jsSlice_zero_natCast (w : List Char) (k : Nat) (h : k ≤ w.length) :
    jsSlice w 0 (k : Int) = w.take k := by
  unfold jsSlice
  rw [jsSliceIdx_natCast w.length k h]
  have h0 : jsSliceIdx w.length 0 = 0 := by simp [jsSliceIdx]
  rw [h0, List.drop_zero]

/-- Helper: when the compiled text is a prefix of the wrapper string,
`indexOf` finds it at position 0. -/
theorem jsIndexOfSub_zero_of_take (w sub : List Char)
    (h : w.take sub.length = sub) : jsIndexOfSub w sub = 0 := by
  unfold jsIndexOfSub
  have h0 : occursAt w sub 0 = true := by
    unfold occursAt
    rw [List.drop_zero]
    simp [h]
  rw [List.range_succ_eq_map, List.find?_cons_of_pos _ h0]
  rfl

/-- Helper: a non-negative `indexOf` result is a genuine in-range
occurrence. -/
theorem jsIndexOfSub_spec (w sub : List Char) (k : Nat)
    (h : jsIndexOfSub w sub = (k : Int)) :
    occursAt w sub k = true ∧ k ≤ w.length := by
  unfold jsIndexOfSub at h
  rcases hfind : (List.range (w.length + 1)).find? (occursAt w sub)
    with _ | i
  · rw [hfind] at h
    simp at h
  · rw [hfind] at h
    simp only [Int.natCast_inj] at h
    subst h
    refine ⟨List.find?_some hfind, ?_⟩
    have hmem := List.mem_of_find?_eq_some hfind
    have := List.mem_range.mp hmem
    omega

/-- Helper: an occurrence at position `k` decomposes the string as
take-k ++ needle ++ rest. -/
theorem occursAt_decomp (w sub : List Char) (k : Nat)
    (h : occursAt w sub k = true) :
    w = w.take k ++ sub ++ w.drop (k + sub.length) := by
  have htake : (w.drop k).take sub.length = sub := by
    unfold occursAt at h
    simpa using h
  have hdrop2 : w.drop k = sub ++ w.drop (k + sub.length) := by
    conv_lhs => rw [← List.take_append_drop sub.length (w.drop k)]
    rw [htake, List.drop_drop]
  conv_lhs => rw [← List.take_append_drop k w]
  rw [hdrop2, List.append_assoc]

/-- Helper: the rendered text of the node `updateMap` composes in the
string-wrapper case, with the source-content attachment steps peeled off
(they never change the text). -/
theorem updateMap_str_content (parse : List Char → SMapObj)
    (fetch : String → List Char) (path : String) (compiled w : List Char)
    (sm : Option SMapInput) :
    (updateMap parse fetch path compiled (Wrapped.str w) sm).content =
      (let sourcePos := jsIndexOfSub w compiled
       let pre := jsSlice w 0 sourcePos
       let suf := jsSliceEnd w (sourcePos + (compiled.length : Int))
       let wc := if sourcePos > 0 then compiled else w
       let c1 := if pre ≠ [] then pre ++ wc else wc
       if suf ≠ [] then c1 ++ suf else c1) := by
  unfold updateMap
  rw [fold_setSourceContent_content]
  by_cases hp : jsSlice w 0 (jsIndexOfSub w compiled) ≠ [] <;>
    by_cases hs : jsSliceEnd w
      (jsIndexOfSub w compiled + (compiled.length : Int)) ≠ [] <;>
    rcases sm with _ | (s | m) <;>
    simp [hp, hs, setSourceContent]

/-- C10: in the string-wrapper branch, when the compiled text occurs at
index 0 of the wrapper string `w` and `w` is strictly longer (empty
prefix, non-empty suffix), the rendered text of the composed node is `w`
followed by a SECOND copy of `w`'s tail past the compiled text (the code
takes the whole wrapper as content because `sourcePos > 0` fails, then
appends the suffix again); the clean prefix ++ compiled ++ suffix
decomposition — rendered text exactly `w` — holds when the compiled text
occurs at a positive index. -/
theorem wrap_index_zero_duplicates_suffix :
    (∀ (parse : List Char → SMapObj) (fetch : String → List Char)
       (path : String) (compiled w : List Char) (sm : Option SMapInput),
       w.take compiled.length = compiled → compiled.length < w.length →
       (updateMap parse fetch path compiled (Wrapped.str w) sm).content =
         w ++ w.drop compiled.length) ∧
    (∀ (parse : List Char → SMapObj) (fetch : String → List Char)
       (path : String) (compiled w : List Char) (sm : Option SMapInput)
       (k : Nat),
       jsIndexOfSub w compiled = (k : Int) → 0 < k →
       (updateMap parse fetch path compiled (Wrapped.str w) sm).content =
         w) := by
  constructor
  · intro parse fetch path compiled w sm h1 h2
    have hidx := jsIndexOfSub_zero_of_take w compiled h1
    rw [updateMap_str_content]
    simp only [hidx]
    have hpre : jsSlice w 0 0 = [] := by
      simp [jsSlice, jsSliceIdx]
    have hsuf : jsSliceEnd w ((compiled.length : Nat) : Int) =
        w.drop compiled.length := jsSliceEnd_natCast w compiled.length
    have hsufne : w.drop compiled.length ≠ [] := by
      intro hnil
      have hlen := congrArg List.length hnil
      rw [List.length_drop] at hlen
      simp at hlen
      omega
    simp [hpre, hsuf, hsufne]
  · intro parse fetch path compiled w sm k hk hkpos
    obtain ⟨hocc, hkle⟩ := jsIndexOfSub_spec w compiled k hk
    have hdecomp := occursAt_decomp w compiled k hocc
    rw [updateMap_str_content]
    simp only [hk]
    have hpre : jsSlice w 0 (k : Int) = w.take k :=
      jsSlice_zero_natCast w k hkle
    have hsuf : jsSliceEnd w ((k : Int) + (compiled.length : Int)) =
        w.drop (k + compiled.length) := by
      have hcast : (k : Int) + (compiled.length : Int) =
          ((k + compiled.length : Nat) : Int) := by push_cast; ring
      rw [hcast, jsSliceEnd_natCast]
    have hwc : ((k : Int) > 0) := by omega
    have hprene : w.take k ≠ [] := by
      intro hnil
      rcases List.take_eq_nil_iff.mp hnil with h0 | h0
      · omega
      · rw [h0] at hkle
        simp at hkle
        omega
    rw [hpre, hsuf, if_pos hwc, if_pos hprene]
    by_cases hdp : w.drop (k + compiled.length) ≠ []
    · rw [if_pos hdp]
      exact hdecomp.symm
    · rw [if_neg hdp]
      have hnil : w.drop (k + compiled.length) = [] := not_ne_iff.mp hdp
      rw [hnil, List.append_nil] at hdecomp
      exact hdecomp.symm

/-- C10 (instance): with wrapper string `"abc"` and compiled text `"ab"`
(occurring at index 0), the rendered text is `"abcc"` — the tail `"c"`
appears twice. -/
theorem wrap_index_zero_duplicates_suffix_inst :
    (updateMap (fun _ => { sources := none }) (fun _ => []) "p"
      ['a', 'b'] (Wrapped.str ['a', 'b', 'c']) none).content =
      ['a', 'b', 'c', 'c'] := by
  have h := wrap_index_zero_duplicates_suffix.1
    (fun _ => { sources := none }) (fun _ => []) "p" ['a', 'b']
    ['a', 'b', 'c'] none (by decide) (by decide)
  simpa using h
